import Mathlib

/-!
Verification of the availability-extraction and notification-dedup core of the
sevenrooms-table-bot repository.

The JavaScript sources (`check.js` and the two unnamed script variants) are
shallowly embedded below.  Pure functions become Lean functions over `List Char`
/ `String`; JavaScript numbers (as produced by `Number(...)` and arithmetic on
them) are modelled by `JSNum`, which distinguishes NaN, the two infinities and
exact rational values (JS doubles are rationals; the values arising here are
small integers, where the two agree exactly).  JSON values become the inductive
type `Json` (numbers restricted to integers, which is all the claims exercise),
and the cyclic object graphs relevant to the traversal's visited-set are
modelled separately by an explicit heap of nodes addressed by identifiers.
-/

/-! ## Characters and generic list utilities -/

/-- Value of an ASCII digit character (`'0'` ↦ 0, …, `'9'` ↦ 9). -/
def digitVal (c : Char) : Nat := c.toNat - 48

/-- The JS regex word-character class `\w` = `[A-Za-z0-9_]` (ASCII only). -/
def isWordCharJS (c : Char) : Bool :=
  (65 ≤ c.toNat && c.toNat ≤ 90) || (97 ≤ c.toNat && c.toNat ≤ 122) ||
  (48 ≤ c.toNat && c.toNat ≤ 57) || c == '_'

/-- Does `pat` occur at the start of `text`? -/
def startsWithSub : List Char → List Char → Bool
  | [], _ => true
  | _ :: _, [] => false
  | p :: ps, t :: ts => p == t && startsWithSub ps ts

/-- Does `pat` occur anywhere inside `text`?  Models JS `String.includes`. -/
def listContainsSub (pat : List Char) : List Char → Bool
  | [] => startsWithSub pat []
  | t :: ts => startsWithSub pat (t :: ts) || listContainsSub pat ts

/-- JS `a.includes(b)` on strings. -/
def strContainsSub (text pat : String) : Bool := listContainsSub pat.data text.data

/-- JS `String.prototype.toLowerCase` restricted to ASCII (all keys compared in
the scripts are ASCII). -/
def lowerStr (s : String) : String := String.mk (s.data.map Char.toLower)

/-- JS `String.prototype.toUpperCase` restricted to ASCII. -/
def upperStr (s : String) : String := String.mk (s.data.map Char.toUpper)

/-- Value of a list of decimal digit characters, most significant first; models
`parseInt` on an all-digit string (and JS `Number` on the same). -/
def digitsVal (ds : List Char) : Nat := ds.foldl (fun a c => a * 10 + digitVal c) 0

/-- Zero-pad a numeral to two characters: models
`n.toString().padStart(2, '0')` for the values `n ≤ 99` produced here. -/
def pad2 (n : Nat) : String := if n < 10 then "0" ++ Nat.repr n else Nat.repr n

/-- Split a character list at every occurrence of `sep`; models
`str.split(sep)` for a one-character separator. -/
def splitSep (sep : Char) : List Char → List (List Char)
  | [] => [[]]
  | c :: rest =>
      if c == sep then [] :: splitSep sep rest
      else
        match splitSep sep rest with
        | [] => [[c]]
        | g :: gs => (c :: g) :: gs

def splitColon : List Char → List (List Char) := splitSep ':'

/-! ## JavaScript numbers

`JSNum` models the values produced by `Number(string)` and the arithmetic in
`timeToMinutes`: NaN, ±Infinity, or an exact rational (an unreduced
numerator/denominator pair `Frac`, denominator always positive by
construction).  All comparisons involving NaN are false, as in JS. -/

/-- An exact (unreduced) fraction; every `den` constructed below is a positive
power of ten, so the cross-multiplication comparison is valid. -/
structure Frac where
  num : Int
  den : Int
deriving DecidableEq

inductive JSNum where
  | nan
  | posInf
  | negInf
  | rat (q : Frac)
deriving DecidableEq

/-- Multiplication by the literal 60 (used by `hours * 60`). -/
def JSNum.mulSixty : JSNum → JSNum
  | .nan => .nan
  | .posInf => .posInf
  | .negInf => .negInf
  | .rat q => .rat ⟨60 * q.num, q.den⟩

/-- JS `+` on numbers (the cases reachable from `timeToMinutes`). -/
def JSNum.add : JSNum → JSNum → JSNum
  | .nan, _ => .nan
  | _, .nan => .nan
  | .posInf, .negInf => .nan
  | .negInf, .posInf => .nan
  | .posInf, _ => .posInf
  | _, .posInf => .posInf
  | .negInf, _ => .negInf
  | _, .negInf => .negInf
  | .rat a, .rat b => .rat ⟨a.num * b.den + b.num * a.den, a.den * b.den⟩

/-- JS `<=` on numbers: false whenever either side is NaN. -/
def JSNum.jsLe : JSNum → JSNum → Bool
  | .nan, _ => false
  | _, .nan => false
  | .negInf, _ => true
  | _, .posInf => true
  | .posInf, _ => false
  | .rat _, .negInf => false
  | .rat a, .rat b => decide (a.num * b.den ≤ b.num * a.den)

/-- JS whitespace characters trimmed by `Number(string)` (ASCII white space
plus NBSP and the BOM; the scripts only ever produce ASCII). -/
def isSpaceJS (c : Char) : Bool :=
  c == ' ' || c == '\t' || c == '\n' || c == '\r' ||
  c.toNat == 11 || c.toNat == 12 || c.toNat == 160 || c.toNat == 65279

def trimJS (cs : List Char) : List Char :=
  ((cs.dropWhile isSpaceJS).reverse.dropWhile isSpaceJS).reverse

def takeDigits (cs : List Char) : List Char × List Char :=
  (cs.takeWhile Char.isDigit, cs.dropWhile Char.isDigit)

/-- Exponent part of a decimal literal (after the mantissa): either nothing, or
`e`/`E`, an optional sign and at least one digit consuming the rest. -/
def parseExpOpt (mant : Frac) (cs : List Char) : Option Frac :=
  match cs with
  | [] => some mant
  | e :: rest =>
      if e == 'e' || e == 'E' then
        let (neg, rest2) :=
          match rest with
          | '+' :: r => (false, r)
          | '-' :: r => (true, r)
          | r => (false, r)
        let (ds, rest3) := takeDigits rest2
        if ds.isEmpty || !rest3.isEmpty then none
        else if neg then some ⟨mant.num, mant.den * (10 : Int) ^ digitsVal ds⟩
        else some ⟨mant.num * (10 : Int) ^ digitsVal ds, mant.den⟩
      else none

/-- Unsigned decimal literal: `digits [. digits] [exp]` or `. digits [exp]`,
consuming the whole input; returns `none` (NaN) otherwise. -/
def parseDecimal (cs : List Char) : Option Frac :=
  let (ip, rest) := takeDigits cs
  match rest with
  | '.' :: rest2 =>
      let (fp, rest3) := takeDigits rest2
      if ip.isEmpty && fp.isEmpty then none
      else
        parseExpOpt ⟨digitsVal ip * (10 : Int) ^ fp.length + digitsVal fp,
          (10 : Int) ^ fp.length⟩ rest3
  | _ => if ip.isEmpty then none else parseExpOpt ⟨digitsVal ip, 1⟩ rest

def hexDigitVal (c : Char) : Option Nat :=
  if c.isDigit then some (digitVal c)
  else if 97 ≤ c.toNat && c.toNat ≤ 102 then some (c.toNat - 87)
  else if 65 ≤ c.toNat && c.toNat ≤ 70 then some (c.toNat - 55)
  else none

def radixVal (base : Nat) : List Char → Option Nat → Option Nat
  | [], acc => acc
  | c :: rest, acc =>
      match hexDigitVal c, acc with
      | some d, some a => if d < base then radixVal base rest (some (a * base + d)) else none
      | _, _ => none

/-- A `0x`/`0b`/`0o` integer literal body (the digits after the radix tag). -/
def parseRadix (base : Nat) (cs : List Char) : JSNum :=
  match cs, radixVal base cs (some 0) with
  | [], _ => .nan
  | _ :: _, some v => .rat ⟨(v : Int), 1⟩
  | _ :: _, none => .nan

def decOrInfinity (neg : Bool) (cs : List Char) : JSNum :=
  if cs = ['I', 'n', 'f', 'i', 'n', 'i', 't', 'y'] then
    if neg then .negInf else .posInf
  else
    match parseDecimal cs with
    | some q => .rat ⟨(if neg then -q.num else q.num), q.den⟩
    | none => .nan

/-- JS `Number(string)` (ToNumber on strings): trimmed empty string is 0; a
signed decimal or `Infinity` literal, or an unsigned `0x`/`0b`/`0o` literal,
must consume the whole trimmed string; anything else is NaN. -/
def jsNumber (s : String) : JSNum :=
  match trimJS s.data with
  | [] => .rat ⟨0, 1⟩
  | '0' :: c :: rest =>
      if c == 'x' || c == 'X' then parseRadix 16 rest
      else if c == 'b' || c == 'B' then parseRadix 2 rest
      else if c == 'o' || c == 'O' then parseRadix 8 rest
      else decOrInfinity false ('0' :: c :: rest)
  | '+' :: rest => decOrInfinity false rest
  | '-' :: rest => decOrInfinity true rest
  | cs => decOrInfinity false cs

/-! ## `timeToMinutes` and `isTimeInWindow` (identical in all three scripts) -/

/-- Model of `timeToMinutes`: `const [hours, minutes] = timeStr.split(':').map(Number);
return hours * 60 + minutes;`.  When the split yields a single part, `minutes`
is `undefined` and the arithmetic produces NaN. -/
def timeToMinutes (timeStr : String) : JSNum :=
  match splitColon timeStr.data with
  | [] => .nan
  | [_] => .nan
  | h :: m :: _ => JSNum.add (JSNum.mulSixty (jsNumber (String.mk h))) (jsNumber (String.mk m))

/-- Model of `isTimeInWindow`: inclusive comparison on minutes since midnight;
`t >= start` is `start <= t`. -/
def isTimeInWindow (timeStr windowStart windowEnd : String) : Bool :=
  JSNum.jsLe (timeToMinutes windowStart) (timeToMinutes timeStr) &&
  JSNum.jsLe (timeToMinutes timeStr) (timeToMinutes windowEnd)

/-! ## `formatTime` (identical in all three scripts)

The regex `/(\d{1,2}):(\d{2})/` is modelled by a scan over the characters: at
each position try the greedy two-digit hour first, then backtrack to a
one-digit hour, exactly as the regex engine does. -/

/-- Try to match `\d{1,2}:\d{2}` starting at the head of `cs`, returning the
two capture groups. -/
def matchHere (cs : List Char) : Option (String × String) :=
  match cs with
  | a :: b :: c :: d :: e :: _ =>
      if a.isDigit && b.isDigit && c == ':' && d.isDigit && e.isDigit then
        some (String.mk [a, b], String.mk [d, e])
      else if a.isDigit && b == ':' && c.isDigit && d.isDigit then
        some (String.mk [a], String.mk [c, d])
      else none
  | [a, b, c, d] =>
      if a.isDigit && b == ':' && c.isDigit && d.isDigit then
        some (String.mk [a], String.mk [c, d])
      else none
  | _ => none

/-- First match of `\d{1,2}:\d{2}` in the list (leftmost position). -/
def firstTimeMatch : List Char → Option (String × String)
  | [] => none
  | c :: rest =>
      match matchHere (c :: rest) with
      | some r => some r
      | none => firstTimeMatch rest

/-- A `digit ':' digit digit` subsequence exists somewhere — the exact
condition under which `/(\d{1,2}):(\d{2})/` has a match (a two-digit-hour
match contains a one-digit-hour match one position later). -/
def hasPat : List Char → Bool
  | a :: b :: c :: d :: rest =>
      (a.isDigit && b == ':' && c.isDigit && d.isDigit) || hasPat (b :: c :: d :: rest)
  | _ => false

/-- Model of `formatTime`: first `\d{1,2}:\d{2}` match, `PM`/`AM` adjustment
(case-insensitive, anywhere in the string), zero-padded result. -/
def formatTime (timeStr : String) : Option String :=
  match firstTimeMatch timeStr.data with
  | none => none
  | some (hStr, mStr) =>
      let hours := digitsVal hStr.data
      let minutes := digitsVal mStr.data
      let hours := if strContainsSub (upperStr timeStr) "PM" && hours < 12 then hours + 12 else hours
      let hours := if strContainsSub (upperStr timeStr) "AM" && hours == 12 then 0 else hours
      some (pad2 hours ++ ":" ++ pad2 minutes)


/-! ## Leaf-string time extraction (`extractTimes` of the first unnamed script)

Two independent regex checks are applied to every string reached by the
traversal: the bare time pattern `/\b(\d{1,2}):(\d{2})\b/` (with word
boundaries, hour and minute range-checked before insertion) and the ISO
datetime pattern `/\d{4}-\d{2}-\d{2}T(\d{2}):(\d{2}):/` (inserted without any
range check).  Results accumulate in an insertion-ordered set. -/

/-- Add to an insertion-ordered set (models `Set.prototype.add`). -/
def setAdd (ts : List String) (s : String) : List String :=
  if ts.contains s then ts else ts ++ [s]

/-- The normalized `HH:MM` string built by the extraction code:
`hours.toString().padStart(2,'0') + ':' + minutes...`. -/
def fmtHM (h m : Nat) : String := pad2 h ++ ":" ++ pad2 m

/-- Word-boundary-aware match of `\b(\d{1,2}):(\d{2})\b` at the current
position.  `bnd` says whether a word boundary precedes this position (for the
digit that would start the match).  Greedy two-digit hour first; the one-digit
backtrack can only succeed when the second character is the colon. -/
def bareMatchHere (bnd : Bool) (cs : List Char) : Option (Nat × Nat) :=
  if !bnd then none
  else
    match cs with
    | a :: b :: c :: d :: e :: rest =>
        if a.isDigit && b.isDigit && c == ':' && d.isDigit && e.isDigit &&
            !(match rest with | [] => false | x :: _ => isWordCharJS x) then
          some (10 * digitVal a + digitVal b, 10 * digitVal d + digitVal e)
        else if a.isDigit && b == ':' && c.isDigit && d.isDigit && !(isWordCharJS e) then
          some (digitVal a, 10 * digitVal c + digitVal d)
        else none
    | [a, b, c, d] =>
        if a.isDigit && b == ':' && c.isDigit && d.isDigit then
          some (digitVal a, 10 * digitVal c + digitVal d)
        else none
    | _ => none

/-- Scan for the first `\b(\d{1,2}):(\d{2})\b` match.  The boundary flag for
position 0 is true (a match must start with a digit, which is a word
character, so the start of the string is a boundary there). -/
def bareScanAux : Bool → List Char → Option (Nat × Nat)
  | _, [] => none
  | bnd, c :: rest =>
      match bareMatchHere bnd (c :: rest) with
      | some r => some r
      | none => bareScanAux (!isWordCharJS c) rest

def bareScan (cs : List Char) : Option (Nat × Nat) := bareScanAux true cs

/-- Match of `\d{4}-\d{2}-\d{2}T(\d{2}):(\d{2}):` at the current position. -/
def isoMatchHere (cs : List Char) : Option (Nat × Nat) :=
  match cs with
  | y1 :: y2 :: y3 :: y4 :: s1 :: a1 :: a2 :: s2 :: b1 :: b2 :: t :: h1 :: h2 :: c1 :: n1 :: n2 :: c2 :: _ =>
      if y1.isDigit && y2.isDigit && y3.isDigit && y4.isDigit && s1 == '-' &&
          a1.isDigit && a2.isDigit && s2 == '-' && b1.isDigit && b2.isDigit &&
          t == 'T' && h1.isDigit && h2.isDigit && c1 == ':' &&
          n1.isDigit && n2.isDigit && c2 == ':' then
        some (10 * digitVal h1 + digitVal h2, 10 * digitVal n1 + digitVal n2)
      else none
  | _ => none

def isoScan : List Char → Option (Nat × Nat)
  | [] => none
  | c :: rest =>
      match isoMatchHere (c :: rest) with
      | some r => some r
      | none => isoScan rest

/-- The string branch of `extractTimes` (lines 612–634 of the first unnamed
script): the bare `HH:MM` match is inserted only when `0 ≤ hours < 24` and
`0 ≤ minutes < 60`; the ISO match is inserted with no range check. -/
def extractString (s : String) (times : List String) : List String :=
  let t1 :=
    match bareScan s.data with
    | some (h, m) => if h < 24 && m < 60 then setAdd times (fmtHM h m) else times
    | none => times
  match isoScan s.data with
  | some (h, m) => setAdd t1 (fmtHM h m)
  | none => t1


/-! ## JSON values -/

/-- Parsed JSON values (numbers restricted to integers — all numeric values in
the claims and the scripts' observations are integral). -/
inductive Json where
  | null
  | bool (b : Bool)
  | num (n : Int)
  | str (s : String)
  | arr (xs : List Json)
  | obj (fs : List (String × Json))

mutual
/-- JS `String(value)` on a (tree-shaped) JSON value: strings unchanged,
`null`/booleans/numbers printed, objects become `[object Object]`, arrays
join the string forms of their elements with commas (`null` elements joining
as the empty string). -/
def jsString : Json → String
  | .null => "null"
  | .bool true => "true"
  | .bool false => "false"
  | .num n => toString n
  | .str s => s
  | .arr xs => jsStringArr xs
  | .obj _ => "[object Object]"

def jsStringArr : List Json → String
  | [] => ""
  | [.null] => ""
  | [x] => jsString x
  | .null :: y :: rest => "," ++ jsStringArr (y :: rest)
  | x :: y :: rest => jsString x ++ "," ++ jsStringArr (y :: rest)
end

/-! ## `extractTimes` (first unnamed script, lines 576–635)

The recursion walks arrays and objects; object entries whose lower-cased key
contains a time token are visited once more (the visited `WeakSet` makes that
second visit a no-op on composite values, and re-adding to the result `Set` is
a no-op for strings).  On tree-shaped inputs, as produced by `JSON.parse`,
every node is a distinct object, so the identity-based visited set never fires
except on that immediate double visit; it is therefore modelled exactly by the
second-visit handling below.  Cyclic inputs are modelled separately
(`extractTimesGraph`). -/

def timeKeysET : List String := ["time", "times", "slots", "available_times",
  "start_time", "startTime", "slot", "availability", "reservationTime"]

/-- Key test of `extractTimes`: `timeKeys.some(tk => lowerKey.includes(tk.toLowerCase()))`. -/
def isTimeKeyET (k : String) : Bool :=
  timeKeysET.any (fun tk => strContainsSub (lowerStr k) (lowerStr tk))

mutual
def extractTimesVisit : Json → List String → List String
  | .null, times => times
  | .bool _, times => times
  | .num _, times => times
  | .str s, times => extractString s times
  | .arr xs, times => extractTimesArr xs times
  | .obj fs, times => extractTimesObj fs times

def extractTimesArr : List Json → List String → List String
  | [], times => times
  | v :: rest, times => extractTimesArr rest (extractTimesVisit v times)

def extractTimesObj : List (String × Json) → List String → List String
  | [], times => times
  | (k, v) :: rest, times =>
      if isTimeKeyET k then
        -- the key matches a time token: the value is processed by the
        -- time-key branch, then again by the unconditional recursion; for
        -- composite values the second visit hits the visited set and returns
        -- immediately, for strings it re-adds the same normalized times
        let t1 := extractTimesVisit v times
        let t2 :=
          match v with
          | .str s => extractString s t1
          | _ => t1
        extractTimesObj rest t2
      else
        extractTimesObj rest (extractTimesVisit v times)
end

/-- Model of `extractTimes(data, times = new Set(), visited = new WeakSet(),
filterDate = null)`.  The `filterDate` parameter is accepted but never read in
the body, and the recursive calls pass only three arguments, so the recursion
always runs with `filterDate = null`. -/
def extractTimes (data : Json) (times : List String) (filterDate : Option String) : List String :=
  extractTimesVisit data times

mutual
/-- All leaf strings of a JSON tree, in traversal order. -/
def leafStrings : Json → List String
  | .str s => [s]
  | .arr xs => leafStringsArr xs
  | .obj fs => leafStringsObj fs
  | _ => []

def leafStringsArr : List Json → List String
  | [] => []
  | v :: rest => leafStrings v ++ leafStringsArr rest

def leafStringsObj : List (String × Json) → List String
  | [] => []
  | (_, v) :: rest => leafStrings v ++ leafStringsObj rest
end


/-! ## `extractTimesFromJson` (second unnamed script, lines 804–864; duplicated
in the first unnamed script, lines 1143–1203)

Date-filtered extraction: an object node turns the `dateMatches` flag on when
one of its keys contains a date token (case-insensitively against the
lower-cased key, so only the all-lowercase tokens `date` and `day` can ever
fire) and the `String(...)` form of that key's value contains the target date
in one of three textual forms.  The flag propagates downward only.  Times are
pushed only under a true flag. -/

/-- Value of one dash-separated part under `Number` for the decimal date
strings (`YYYY-MM-DD`) the program is configured with. -/
def numPart (cs : List Char) : Nat :=
  if !cs.isEmpty && cs.all Char.isDigit then digitsVal cs else 0

/-- The three textual forms of the selected date compared against field
values: `YYYY-MM-DD` (re-padded), `M/D/YYYY`, `D/M/YYYY`, from
`selectedDate.split('-').map(Number)`. -/
def dateReprs (selectedDate : String) : String × String × String :=
  match (splitSep '-' selectedDate.data).map numPart with
  | y :: m :: d :: _ =>
      (Nat.repr y ++ "-" ++ pad2 m ++ "-" ++ pad2 d,
       Nat.repr m ++ "/" ++ Nat.repr d ++ "/" ++ Nat.repr y,
       Nat.repr d ++ "/" ++ Nat.repr m ++ "/" ++ Nat.repr y)
  | _ => ("", "", "")

def timeFieldsFJ : List String := ["time", "startTime", "start_time", "slot",
  "availability", "reservationTime"]

def dateFieldsFJ : List String := ["date", "bookingDate", "reservationDate",
  "day", "selectedDate"]

/-- Field-name test `timeFields.some(field => lowerKey.includes(field))`; the
tokens containing upper-case letters can never occur in a lower-cased key. -/
def isTimeFieldFJ (k : String) : Bool :=
  timeFieldsFJ.any (fun f => strContainsSub (lowerStr k) f)

def isDateFieldFJ (k : String) : Bool :=
  dateFieldsFJ.any (fun f => strContainsSub (lowerStr k) f)

/-- Does `String(v)` contain one of the three date representations? -/
def dateValMatches (selectedDate : String) (v : Json) : Bool :=
  let (d1, d2, d3) := dateReprs selectedDate
  strContainsSub (jsString v) d1 || strContainsSub (jsString v) d2 ||
    strContainsSub (jsString v) d3

/-- The per-object scan that may switch `dateMatches` on. -/
def hasDateFieldMatch (selectedDate : String) (fs : List (String × Json)) : Bool :=
  fs.any (fun kv => isDateFieldFJ kv.1 && dateValMatches selectedDate kv.2)

mutual
/-- Recursive body of `extractTimesFromJson`.  When the function is applied to
an array, `Object.entries` yields index keys (`"0"`, `"1"`, …), which never
contain a time or date token, so the per-entry key tests are skipped and the
flag is unchanged (`extractTimesFJIdx`). -/
def extractTimesFJ (sel : String) : Json → Bool → List String
  | .obj fs, dm => extractTimesFJFields sel fs (dm || hasDateFieldMatch sel fs)
  | .arr xs, dm => extractTimesFJIdx sel xs dm
  | _, _ => []

/-- One object entry after another: the time-field push (strings containing a
`\d{1,2}:\d{2}` match, pushed only under a true flag), the array-element walk,
and the unconditional recursion into non-array object values. -/
def extractTimesFJFields (sel : String) : List (String × Json) → Bool → List String
  | [], _ => []
  | (k, v) :: rest, dm =>
      (if isTimeFieldFJ k then
         match v with
         | .str s => if hasPat s.data && dm then [s] else []
         | _ => []
       else []) ++
      (match v with
       | .arr items => extractTimesFJItems sel items dm
       | _ => []) ++
      (match v with
       | .obj fs2 => extractTimesFJ sel (.obj fs2) dm
       | _ => []) ++
      extractTimesFJFields sel rest dm

/-- `value.forEach(item => ...)`: string items with a time match are pushed
under a true flag; items of object type (objects, arrays and `null`) are
recursed into; numbers and booleans contribute nothing. -/
def extractTimesFJItems (sel : String) : List Json → Bool → List String
  | [], _ => []
  | item :: rest, dm =>
      (match item with
       | .str s => if hasPat s.data && dm then [s] else []
       | .num _ => []
       | .bool _ => []
       | .null => extractTimesFJ sel .null dm
       | .arr ys => extractTimesFJ sel (.arr ys) dm
       | .obj fs2 => extractTimesFJ sel (.obj fs2) dm) ++
      extractTimesFJItems sel rest dm

/-- Entries of an array seen as an object: index keys match no token, so only
the array-element walk and the object recursion apply. -/
def extractTimesFJIdx (sel : String) : List Json → Bool → List String
  | [], _ => []
  | v :: rest, dm =>
      (match v with
       | .arr items => extractTimesFJItems sel items dm
       | _ => []) ++
      (match v with
       | .obj fs2 => extractTimesFJ sel (.obj fs2) dm
       | _ => []) ++
      extractTimesFJIdx sel rest dm
end

/-- Model of `extractTimesFromJson(json, selectedDate, times = [],
parentDateMatches = false)` as called by the orchestrator (fresh accumulator,
flag initially false). -/
def extractTimesFromJson (json : Json) (selectedDate : String) : List String :=
  extractTimesFJ selectedDate json false

mutual
/-- No object node anywhere in the tree has a date-indicating field whose
value's string form contains the target date: under this condition the
`dateMatches` flag can never turn on. -/
def noDateFieldMatch (sel : String) : Json → Bool
  | .obj fs => !(hasDateFieldMatch sel fs) && noDateFieldMatchFields sel fs
  | .arr xs => noDateFieldMatchList sel xs
  | _ => true

def noDateFieldMatchFields (sel : String) : List (String × Json) → Bool
  | [] => true
  | (_, v) :: rest => noDateFieldMatch sel v && noDateFieldMatchFields sel rest

def noDateFieldMatchList (sel : String) : List Json → Bool
  | [] => true
  | v :: rest => noDateFieldMatch sel v && noDateFieldMatchList sel rest
end


/-! ## The decision loop of `checkAvailability` (check.js lines 557–591, and
identically the second unnamed script lines 752–786)

For each deduplicated raw time: normalize with `formatTime` (skip on failure),
test the window, build the key `DATE_HH:MM`, skip if the ledger already has
it, otherwise send; only on a successful send append the key to the ledger and
persist (`saveState`).  `send` is the outcome of the notification collaborator
for the given formatted time; the third result component counts `saveState`
calls. -/

def processAvailableTimes (send : String → Bool) (date ws we : String) :
    List String → List String → List String × List String × Nat
  | [], st => ([], st, 0)
  | t :: rest, st =>
      match formatTime t with
      | none => processAvailableTimes send date ws we rest st
      | some ft =>
          if isTimeInWindow ft ws we then
            let timeKey := date ++ "_" ++ ft
            if st.contains timeKey then
              processAvailableTimes send date ws we rest st
            else if send ft then
              let r := processAvailableTimes send date ws we rest (st ++ [timeKey])
              (ft :: r.1, r.2.1, r.2.2 + 1)
            else
              processAvailableTimes send date ws we rest st
          else
            processAvailableTimes send date ws we rest st

/-- Every time that survives normalization and the window filter already has
its key in the ledger. -/
def allSurvivingNotified (date ws we : String) (uniqueTimes st : List String) : Bool :=
  uniqueTimes.all (fun t =>
    match formatTime t with
    | none => true
    | some ft => !(isTimeInWindow ft ws we) || st.contains (date ++ "_" ++ ft))

/-! ## The retry structure of `checkAvailability` (check.js lines 593–604)

On any uncaught error the catch block closes the browser and returns
`checkAvailability()` — a fresh attempt with no retry counter.  Abstracting
each attempt to its outcome (`true` = the attempt completes, `false` = it
throws), the number of restarts performed before the first completed attempt
in a trace of outcomes is: -/

def restartsUsed : List Bool → Option Nat
  | [] => none
  | o :: rest => if o then some 0 else (restartsUsed rest).map (· + 1)

/-! ## The ordered pipeline of the first unnamed script (lines 1088–1106)

`Array.from(allExtractedTimes).sort()` sorts the deduplicated normalized times
by the default comparator (code-unit-wise lexicographic order); the window
filter then preserves that order, and the notification loop processes the
result front to back.  Since the elements are pairwise distinct (they come out
of a `Set`), every correct sort produces the same list, so insertion sort is
used as the model. -/

/-- Code-unit-wise lexicographic `≤` on strings, as used by the default
`Array.prototype.sort` comparator. -/
def charListLe : List Char → List Char → Bool
  | [], _ => true
  | _ :: _, [] => false
  | a :: as, b :: bs =>
      if a.toNat < b.toNat then true
      else if b.toNat < a.toNat then false
      else charListLe as bs

def strLe (a b : String) : Bool := charListLe a.data b.data

def strLeRel (a b : String) : Prop := strLe a b = true

instance : DecidableRel strLeRel := fun a b => by
  unfold strLeRel
  infer_instance

/-- Sorted, deduplicated times surviving the window filter, in the order the
first unnamed script's notification loop processes them. -/
def timesInWindow (ws we : String) (allExtractedTimes : List String) : List String :=
  (List.insertionSort strLeRel allExtractedTimes.eraseDups).filter
    (fun time => isTimeInWindow time ws we)

/-- A canonical in-range `HH:MM` string: five characters, two digit pairs
around a colon, hour below 24 and minute below 60. -/
def canonicalTime (t : String) : Bool :=
  match t.data with
  | [h1, h2, c, m1, m2] =>
      (48 ≤ h1.toNat && h1.toNat ≤ 57) && (48 ≤ h2.toNat && h2.toNat ≤ 57) &&
      c == ':' &&
      (48 ≤ m1.toNat && m1.toNat ≤ 57) && (48 ≤ m2.toNat && m2.toNat ≤ 57) &&
      decide (10 * digitVal h1 + digitVal h2 < 24) &&
      decide (10 * digitVal m1 + digitVal m2 < 60)
  | _ => false

/-- Minutes since midnight read directly off a canonical `HH:MM` string. -/
def canonicalVal (t : String) : Nat :=
  match t.data with
  | [h1, h2, _, m1, m2] =>
      (10 * digitVal h1 + digitVal h2) * 60 + (10 * digitVal m1 + digitVal m2)
  | _ => 0


/-! ## `extractTimes` on possibly-cyclic object graphs (first unnamed script,
lines 576–609)

JavaScript values reached by the traversal live on a heap: a value is a
primitive, a string, or a reference to a heap node (an array or an object);
references may form cycles.  The `visited` `WeakSet` is the set of node
identifiers already entered.  The recursion is modelled with an explicit fuel
counter that decreases on every descent into an unvisited node: `none` means
the fuel guard was reached, so a `some` result for every sufficiently large
fuel is exactly termination of the unbounded recursion. -/

/-- A JavaScript value: a primitive, a string, or a reference to a heap node. -/
inductive Val where
  | vnull
  | vbool (b : Bool)
  | vnum (n : Int)
  | vstr (s : String)
  | vref (r : Nat)

/-- A heap node: an array of values or an object with string keys. -/
inductive HNode where
  | harr (xs : List Val)
  | hobj (fs : List (String × Val))

/-- A heap: nodes addressed by identifiers (lookup takes the first match). -/
abbrev Heap := List (Nat × HNode)

def lookupNode : Heap → Nat → Option HNode
  | [], _ => none
  | (i, n) :: rest, r => if i == r then some n else lookupNode rest r

mutual
/-- The graph traversal of `extractTimes`: a reference already in `visited`
returns immediately; otherwise the node identifier is added to `visited` and
the node's children are walked (object entries get the time-key double visit
exactly as in the tree model — the second visit of a composite value hits the
visited set at once). -/
def extractTimesGraph (heap : Heap) : Nat → Val → List String → List Nat →
    Option (List String × List Nat)
  | _, .vnull, times, visited => some (times, visited)
  | _, .vbool _, times, visited => some (times, visited)
  | _, .vnum _, times, visited => some (times, visited)
  | _, .vstr s, times, visited => some (extractString s times, visited)
  | fuel, .vref r, times, visited =>
      if visited.contains r then some (times, visited)
      else
        match fuel with
        | 0 => none
        | fuel' + 1 =>
            match lookupNode heap r with
            | none => some (times, r :: visited)
            | some (.harr xs) => extractTimesGraphArr heap fuel' xs times (r :: visited)
            | some (.hobj fs) => extractTimesGraphObj heap fuel' fs times (r :: visited)
termination_by fuel v times visited => (fuel, 0)

def extractTimesGraphArr (heap : Heap) : Nat → List Val → List String → List Nat →
    Option (List String × List Nat)
  | _, [], times, visited => some (times, visited)
  | fuel, v :: rest, times, visited =>
      match extractTimesGraph heap fuel v times visited with
      | none => none
      | some (t1, vis1) => extractTimesGraphArr heap fuel rest t1 vis1
termination_by fuel xs times visited => (fuel, xs.length + 1)

def extractTimesGraphObj (heap : Heap) : Nat → List (String × Val) → List String → List Nat →
    Option (List String × List Nat)
  | _, [], times, visited => some (times, visited)
  | fuel, (k, v) :: rest, times, visited =>
      if isTimeKeyET k then
        match extractTimesGraph heap fuel v times visited with
        | none => none
        | some (t1, vis1) =>
            match extractTimesGraph heap fuel v t1 vis1 with
            | none => none
            | some (t2, vis2) => extractTimesGraphObj heap fuel rest t2 vis2
      else
        match extractTimesGraph heap fuel v times visited with
        | none => none
        | some (t1, vis1) => extractTimesGraphObj heap fuel rest t1 vis1
termination_by fuel fs times visited => (fuel, fs.length + 1)
end

/-- Number of heap node entries whose identifier is not yet visited: the
quantity the visited-set check makes strictly decrease on every descent. -/
def unvisitedCount (heap : Heap) (visited : List Nat) : Nat :=
  ((heap.map Prod.fst).filter (fun r => !visited.contains r)).length


/-- A normalized time `t` can be produced from the leaf string `s`: by the
bare `HH:MM` pattern subject to the range check, or by the ISO datetime
pattern unconditionally. -/
def emittedFromString (s t : String) : Prop :=
  (∃ h m, bareScan s.data = some (h, m) ∧ h < 24 ∧ m < 60 ∧ t = fmtHM h m)
  ∨ (∃ h m, isoScan s.data = some (h, m) ∧ t = fmtHM h m)

/-! # Theorems -/

/-! ## Helper lemmas about the decision loop -/

theorem processTimes_invariants (send : String → Bool) (date ws we : String) :
    ∀ (ts st : List String),
      (processAvailableTimes send date ws we ts st).2.1
        = st ++ (processAvailableTimes send date ws we ts st).1.map (fun ft => date ++ "_" ++ ft)
      ∧ (∀ ft ∈ (processAvailableTimes send date ws we ts st).1, send ft = true)
      ∧ (processAvailableTimes send date ws we ts st).2.2
        = (processAvailableTimes send date ws we ts st).1.length := by
  intro ts
  induction ts with
  | nil =>
      intro st
      refine ⟨by simp [processAvailableTimes], by simp [processAvailableTimes],
        by simp [processAvailableTimes]⟩
  | cons t rest ih =>
      intro st
      simp only [processAvailableTimes]
      cases hft : formatTime t with
      | none => exact ih st
      | some ft =>
          cases hw : isTimeInWindow ft ws we with
          | false => simpa [hw] using ih st
          | true =>
              simp only [hw, if_true]
              cases hc : st.contains (date ++ "_" ++ ft) with
              | true => simpa [hc] using ih st
              | false =>
                  simp only [hc, Bool.false_eq_true, if_false]
                  cases hs : send ft with
                  | false => simpa [hs] using ih st
                  | true =>
                      simp only [hs, if_true]
                      obtain ⟨ih1, ih2, ih3⟩ := ih (st ++ [date ++ "_" ++ ft])
                      refine ⟨?_, ?_, ?_⟩
                      · simpa [List.append_assoc] using ih1
                      · intro ft' hft'
                        rcases List.mem_cons.1 hft' with rfl | hmem
                        · exact hs
                        · exact ih2 ft' hmem
                      · simpa using ih3

theorem string_append_inj_right (s a b : String) (h : s ++ a = s ++ b) : a = b := by
  have h2 : s.data ++ a.data = s.data ++ b.data := by
    have := congrArg String.data h
    simpa using this
  have h3 : a.data = b.data := List.append_cancel_left h2
  cases a
  cases b
  exact congrArg String.mk h3

/-! ## C1 — notification idempotence -/

/-- C1.  Notification idempotence: if the ledger already contains the key
`DATE_HH:MM` for every time that survives normalization and window filtering,
the decision loop sends nothing, saves nothing and leaves the ledger
unchanged. -/
theorem notification_idempotence (send : String → Bool) (date ws we : String)
    (ts st : List String) (h : allSurvivingNotified date ws we ts st = true) :
    processAvailableTimes send date ws we ts st = ([], st, 0) := by
  induction ts with
  | nil => rfl
  | cons t rest ih =>
      simp only [allSurvivingNotified, List.all_cons, Bool.and_eq_true] at h
      have hrest : allSurvivingNotified date ws we rest st = true := h.2
      have h1 := h.1
      cases hft : formatTime t with
      | none => simpa [processAvailableTimes, hft] using ih hrest
      | some ft =>
          rw [hft] at h1
          have h1' : (!(isTimeInWindow ft ws we) || st.contains (date ++ "_" ++ ft)) = true := h1
          cases hw : isTimeInWindow ft ws we with
          | false => simpa [processAvailableTimes, hft, hw] using ih hrest
          | true =>
              rw [hw] at h1'
              simp only [Bool.not_true, Bool.false_or] at h1'
              have h1m : (date ++ "_" ++ ft) ∈ st := by simpa using h1'
              simpa [processAvailableTimes, hft, hw, h1m] using ih hrest

/-- Witness for C1, instantiating the claim's end-to-end scenario: the second
run over the same observation `["19:30"]`, with the ledger produced by a first
run in which the send succeeded, sends zero notifications, performs zero
saves, and leaves the ledger unchanged. -/
theorem notification_idempotence_witness :
    allSurvivingNotified "2024-03-15" "18:00" "21:00" ["19:30"]
        (processAvailableTimes (fun _ => true) "2024-03-15" "18:00" "21:00" ["19:30"] []).2.1
      = true
    ∧ processAvailableTimes (fun _ => true) "2024-03-15" "18:00" "21:00" ["19:30"]
        (processAvailableTimes (fun _ => true) "2024-03-15" "18:00" "21:00" ["19:30"] []).2.1
      = ([], (processAvailableTimes (fun _ => true) "2024-03-15" "18:00" "21:00" ["19:30"] []).2.1, 0) :=
  ⟨by decide, notification_idempotence _ _ _ _ _ _ (by decide)⟩

/-! ## C4 — send-failure atomicity of the ledger -/

/-- C4.  The final ledger is the initial ledger plus exactly one appended key
per successfully sent time; `saveState` runs once per successful send; and a
time whose send fails contributes no ledger entry — its key is in the final
ledger only if it already was in the initial one, so it stays eligible. -/
theorem send_failure_ledger_atomicity (send : String → Bool) (date ws we : String)
    (ts st : List String) :
    (processAvailableTimes send date ws we ts st).2.1
      = st ++ (processAvailableTimes send date ws we ts st).1.map (fun ft => date ++ "_" ++ ft)
    ∧ (∀ ft ∈ (processAvailableTimes send date ws we ts st).1, send ft = true)
    ∧ (processAvailableTimes send date ws we ts st).2.2
      = (processAvailableTimes send date ws we ts st).1.length
    ∧ (∀ ft, send ft = false →
        ((date ++ "_" ++ ft) ∈ (processAvailableTimes send date ws we ts st).2.1 ↔
          (date ++ "_" ++ ft) ∈ st)) := by
  obtain ⟨h1, h2, h3⟩ := processTimes_invariants send date ws we ts st
  refine ⟨h1, h2, h3, ?_⟩
  intro ft hsf
  constructor
  · intro hmem
    rw [h1] at hmem
    rcases List.mem_append.1 hmem with hin | hin
    · exact hin
    · obtain ⟨a, ha, hk⟩ := List.mem_map.1 hin
      have : a = ft := string_append_inj_right date _ _ (by
        have : date ++ ("_" ++ a) = date ++ ("_" ++ ft) := by
          simpa [String.append_assoc] using hk
        exact this) |> fun h0 => string_append_inj_right "_" a ft h0
      subst this
      rw [h2 a ha] at hsf
      cases hsf
  · intro hmem
    rw [h1]
    exact List.mem_append_left _ hmem

/-- Witness for C4 at a concrete run in which the send for `19:30` fails:
no key is appended, nothing is saved, and `2024-03-15_19:30` is absent from
the final ledger. -/
theorem send_failure_ledger_atomicity_witness :
    (processAvailableTimes (fun _ => false) "2024-03-15" "18:00" "21:00" ["19:30"] []).2.1
      = [] ++ (processAvailableTimes (fun _ => false) "2024-03-15" "18:00" "21:00" ["19:30"] []).1.map
          (fun ft => "2024-03-15" ++ "_" ++ ft)
    ∧ ((fun _ => false : String → Bool) "19:30" = false →
        (("2024-03-15" ++ "_" ++ "19:30") ∈
            (processAvailableTimes (fun _ => false) "2024-03-15" "18:00" "21:00" ["19:30"] []).2.1 ↔
          ("2024-03-15" ++ "_" ++ "19:30") ∈ ([] : List String))) :=
  ⟨(send_failure_ledger_atomicity (fun _ => false) "2024-03-15" "18:00" "21:00" ["19:30"] []).1,
   fun hf => (send_failure_ledger_atomicity (fun _ => false) "2024-03-15" "18:00" "21:00"
      ["19:30"] []).2.2.2 "19:30" hf⟩

/-! ## C2 — the retry policy is not single-retry -/

/-- C2.  Evaluating the retry recursion of `checkAvailability` on a trace
whose first two attempts fail and whose third succeeds: the code performs two
restarts and completes, instead of surfacing a fatal error after the second
failure.  The catch block calls `checkAvailability()` with no retry counter,
so the number of restarts is unbounded, contradicting the script's own
`// Retry once` comment. -/
theorem retry_not_limited_to_one :
    restartsUsed [false, false, true] = some 2 := by decide

/-! ## C8 — processing order (counterexample for check.js) -/

/-- Counterexample for C8: in the check.js decision loop, the deduplicated
times are processed in first-extraction order, not ascending order — with
extracted order `["20:00", "19:00"]` and both times in window and unnotified,
the notifications go out as `["20:00", "19:00"]`, although `19:00` is the
earlier time of day. -/
theorem ascending_order_counterexample :
    (processAvailableTimes (fun _ => true) "2024-03-15" "18:00" "21:00"
        ["20:00", "19:00"] []).1 = ["20:00", "19:00"]
    ∧ canonicalVal "19:00" < canonicalVal "20:00" := by decide

/-! ## C9 — the `filterDate` parameter of `extractTimes` is dead -/

/-- C9.  The `filterDate` parameter of `extractTimes` is accepted but never
read, and the recursive calls do not forward it, so extraction results are
identical for any two `filterDate` arguments. -/
theorem extractTimes_filterDate_no_effect (data : Json) (times : List String)
    (d1 d2 : Option String) :
    extractTimes data times d1 = extractTimes data times d2 := rfl

/-! ## C10 — the window filter rejects malformed time strings -/

/-- C10.  When `timeToMinutes` yields NaN for a string (it does not have the
form hours-colon-minutes with numeric components), `isTimeInWindow` is false
for every window: both comparisons against NaN are false in JS. -/
theorem window_filter_rejects_malformed (s ws we : String)
    (h : timeToMinutes s = JSNum.nan) :
    isTimeInWindow s ws we = false := by
  unfold isTimeInWindow
  rw [h]
  cases timeToMinutes ws <;> simp [JSNum.jsLe]

/-- Witness for C10 at the malformed string `"garbage"`. -/
theorem window_filter_rejects_malformed_witness :
    timeToMinutes "garbage" = JSNum.nan
    ∧ isTimeInWindow "garbage" "18:00" "21:00" = false :=
  ⟨by decide, window_filter_rejects_malformed "garbage" "18:00" "21:00" (by decide)⟩

/-! ## C5 — `formatTime` normalization -/

theorem matchHere_some_hasPat (cs : List Char) (r : String × String)
    (h : matchHere cs = some r) : hasPat cs = true := by
  match cs with
  | a :: b :: c :: d :: e :: rest =>
      simp only [matchHere] at h
      by_cases h2 : (a.isDigit && b.isDigit && (c == ':') && d.isDigit && e.isDigit) = true
      · simp only [Bool.and_eq_true] at h2
        obtain ⟨⟨⟨⟨hb1, hb2⟩, hb3⟩, hb4⟩, hb5⟩ := h2
        simp [hasPat, hb2, hb3, hb4, hb5]
      · rw [if_neg h2] at h
        by_cases h3 : (a.isDigit && (b == ':') && c.isDigit && d.isDigit) = true
        · simp only [Bool.and_eq_true] at h3
          obtain ⟨⟨⟨hb1, hb2⟩, hb3⟩, hb4⟩ := h3
          simp [hasPat, hb1, hb2, hb3, hb4]
        · rw [if_neg h3] at h
          cases h
  | [a, b, c, d] =>
      simp only [matchHere] at h
      by_cases h3 : (a.isDigit && (b == ':') && c.isDigit && d.isDigit) = true
      · simp only [Bool.and_eq_true] at h3
        obtain ⟨⟨⟨hb1, hb2⟩, hb3⟩, hb4⟩ := h3
        simp [hasPat, hb1, hb2, hb3, hb4]
      · rw [if_neg h3] at h
        cases h
  | [] => cases h
  | [a] => cases h
  | [a, b] => cases h
  | [a, b, c] => cases h

theorem matchHere_none_pos0 (a b c d : Char) (tl : List Char)
    (h : matchHere (a :: b :: c :: d :: tl) = none) :
    (a.isDigit && (b == ':') && c.isDigit && d.isDigit) = false := by
  by_contra hne
  rw [Bool.not_eq_false] at hne
  have hbcolon : b = ':' := by
    simp only [Bool.and_eq_true, beq_iff_eq] at hne
    exact hne.1.1.2
  have hbnotdigit : b.isDigit = false := by rw [hbcolon]; decide
  match tl with
  | [] =>
      simp only [matchHere, hne, if_true] at h
      cases h
  | e :: tl' =>
      have h1 : (a.isDigit && b.isDigit && (c == ':') && d.isDigit && e.isDigit) = false := by
        simp [hbnotdigit]
      simp only [matchHere, h1, Bool.false_eq_true, if_false] at h
      simp only [Bool.and_eq_true, beq_iff_eq] at hne
      obtain ⟨⟨⟨ha, hb⟩, hc⟩, hd⟩ := hne
      simp [ha, hb, hc, hd] at h

theorem firstTimeMatch_short : ∀ cs : List Char, cs.length < 4 → firstTimeMatch cs = none := by
  intro cs
  induction cs with
  | nil => intro _; rfl
  | cons c rest ih =>
      intro hlen
      have hm : matchHere (c :: rest) = none := by
        match rest with
        | [] => rfl
        | [x] => rfl
        | [x, y] => rfl
        | x :: y :: z :: tl => simp at hlen; omega
      simp only [firstTimeMatch, hm]
      exact ih (by simpa using Nat.lt_of_succ_lt hlen)

theorem firstTimeMatch_none_iff : ∀ cs : List Char,
    firstTimeMatch cs = none ↔ hasPat cs = false := by
  intro cs
  induction cs with
  | nil => simp [firstTimeMatch, hasPat]
  | cons c rest ih =>
      cases hm : matchHere (c :: rest) with
      | some r =>
          have hp : hasPat (c :: rest) = true := matchHere_some_hasPat _ _ hm
          simp [firstTimeMatch, hm, hp]
      | none =>
          match rest with
          | b :: c2 :: d :: tl =>
              have hp0 := matchHere_none_pos0 c b c2 d tl hm
              have hpeq : hasPat (c :: b :: c2 :: d :: tl) = hasPat (b :: c2 :: d :: tl) := by
                simp [hasPat, hp0]
              simp only [firstTimeMatch, hm, hpeq]
              exact ih
          | [] => simp [firstTimeMatch, hm, hasPat]
          | [b] => simp [firstTimeMatch, hm, hasPat, show matchHere [b] = none from rfl]
          | [b, c2] =>
              simp [firstTimeMatch, hm, hasPat, show matchHere [b, c2] = none from rfl,
                show matchHere [c2] = none from rfl]

/-- C5.  `formatTime` fails exactly when the string has no
`digit ':' digit digit` subsequence (the condition for the regex
`/(\d{1,2}):(\d{2})/` to have a match), and normalizes the claim's examples —
including the `PM`/`AM` hour adjustments — to canonical zero-padded 24-hour
form. -/
theorem formatTime_normalization :
    (∀ s : String, formatTime s = none ↔ hasPat s.data = false)
    ∧ formatTime "7:30 PM" = some "19:30"
    ∧ formatTime "2024-03-15T08:05:00" = some "08:05"
    ∧ formatTime "19:30:00" = some "19:30"
    ∧ formatTime "12:15 PM" = some "12:15"
    ∧ formatTime "12:15 AM" = some "00:15" := by
  refine ⟨?_, by decide, by decide, by decide, by decide, by decide⟩
  intro s
  unfold formatTime
  cases hm : firstTimeMatch s.data with
  | none => simpa using (firstTimeMatch_none_iff s.data).1 hm
  | some r =>
      have : firstTimeMatch s.data ≠ none := by rw [hm]; exact Option.some_ne_none r
      have hp : hasPat s.data = true := by
        by_contra hfalse
        exact this ((firstTimeMatch_none_iff s.data).2 (Bool.not_eq_true _ ▸ hfalse))
      simp [hp]

/-! ## C3 — date-confirmation conservatism -/

mutual
theorem noDFM_extract (sel : String) (j : Json) (h : noDateFieldMatch sel j = true) :
    extractTimesFJ sel j false = [] := by
  match j with
  | .null => rfl
  | .bool _ => rfl
  | .num _ => rfl
  | .str _ => rfl
  | .arr xs =>
      have h' : noDateFieldMatchList sel xs = true := h
      exact noDFM_extractIdx sel xs h'
  | .obj fs =>
      have h' : (!(hasDateFieldMatch sel fs) && noDateFieldMatchFields sel fs) = true := h
      rw [Bool.and_eq_true, Bool.not_eq_true'] at h'
      have e0 : extractTimesFJ sel (.obj fs) false
          = extractTimesFJFields sel fs (false || hasDateFieldMatch sel fs) := rfl
      rw [e0, h'.1]
      exact noDFM_extractFields sel fs h'.2

theorem noDFM_extractFields (sel : String) (fs : List (String × Json))
    (h : noDateFieldMatchFields sel fs = true) :
    extractTimesFJFields sel fs false = [] := by
  match fs with
  | [] => rfl
  | (k, v) :: rest =>
      have h' : (noDateFieldMatch sel v && noDateFieldMatchFields sel rest) = true := h
      rw [Bool.and_eq_true] at h'
      have hrest := noDFM_extractFields sel rest h'.2
      match v with
      | .null => simp [extractTimesFJFields, hrest]
      | .bool b => simp [extractTimesFJFields, hrest]
      | .num n => simp [extractTimesFJFields, hrest]
      | .str s => simp [extractTimesFJFields, hrest]
      | .arr items =>
          have hi := noDFM_extractItems sel items h'.1
          simp [extractTimesFJFields, hrest, hi]
      | .obj fs2 =>
          have ho := noDFM_extract sel (.obj fs2) h'.1
          simp [extractTimesFJFields, hrest, ho]

theorem noDFM_extractItems (sel : String) (xs : List Json)
    (h : noDateFieldMatchList sel xs = true) :
    extractTimesFJItems sel xs false = [] := by
  match xs with
  | [] => rfl
  | item :: rest =>
      have h' : (noDateFieldMatch sel item && noDateFieldMatchList sel rest) = true := h
      rw [Bool.and_eq_true] at h'
      have hrest := noDFM_extractItems sel rest h'.2
      match item with
      | .str s => simp [extractTimesFJItems, hrest]
      | .num n => simp [extractTimesFJItems, hrest]
      | .bool b => simp [extractTimesFJItems, hrest]
      | .null => simp [extractTimesFJItems, hrest, extractTimesFJ]
      | .arr ys =>
          have ha := noDFM_extract sel (.arr ys) h'.1
          simp [extractTimesFJItems, hrest, ha]
      | .obj fs2 =>
          have ho := noDFM_extract sel (.obj fs2) h'.1
          simp [extractTimesFJItems, hrest, ho]

theorem noDFM_extractIdx (sel : String) (xs : List Json)
    (h : noDateFieldMatchList sel xs = true) :
    extractTimesFJIdx sel xs false = [] := by
  match xs with
  | [] => rfl
  | v :: rest =>
      have h' : (noDateFieldMatch sel v && noDateFieldMatchList sel rest) = true := h
      rw [Bool.and_eq_true] at h'
      have hrest := noDFM_extractIdx sel rest h'.2
      match v with
      | .null => simp [extractTimesFJIdx, hrest]
      | .bool b => simp [extractTimesFJIdx, hrest]
      | .num n => simp [extractTimesFJIdx, hrest]
      | .str s => simp [extractTimesFJIdx, hrest]
      | .arr items =>
          have hi := noDFM_extractItems sel items h'.1
          simp [extractTimesFJIdx, hrest, hi]
      | .obj fs2 =>
          have ho := noDFM_extract sel (.obj fs2) h'.1
          simp [extractTimesFJIdx, hrest, ho]
end

/-- C3.  Date-confirmation conservatism: when no object node anywhere in the
observation has a date-indicating field matching the target date (in
particular when every date field names a different date), date-filtered
extraction returns no candidate at all, and the decision loop over the
(deduplicated) extraction result sends zero notifications and leaves the
ledger unchanged. -/
theorem date_confirmation_conservatism (sel ws we : String) (send : String → Bool)
    (st : List String) (j : Json) (h : noDateFieldMatch sel j = true) :
    extractTimesFromJson j sel = []
    ∧ processAvailableTimes send sel ws we (extractTimesFromJson j sel).eraseDups st
        = ([], st, 0) := by
  have he : extractTimesFromJson j sel = [] := noDFM_extract sel j h
  refine ⟨he, ?_⟩
  rw [he]
  rfl

/-! ## C6 — range policy of leaf-string extraction -/

theorem mem_setAdd (ts : List String) (x t : String) :
    t ∈ setAdd ts x ↔ t ∈ ts ∨ t = x := by
  unfold setAdd
  by_cases hc : (ts.contains x) = true
  · rw [if_pos hc]
    have hx : x ∈ ts := by simpa using hc
    constructor
    · exact Or.inl
    · rintro (hm | rfl)
      · exact hm
      · exact hx
  · rw [if_neg hc]
    simp

theorem mem_extractString (s : String) (times : List String) (t : String)
    (h : t ∈ extractString s times) : t ∈ times ∨ emittedFromString s t := by
  cases hbare : bareScan s.data with
  | none =>
      cases hiso : isoScan s.data with
      | none =>
          simp only [extractString, hbare, hiso] at h
          exact Or.inl h
      | some hm =>
          obtain ⟨ih, im⟩ := hm
          simp only [extractString, hbare, hiso] at h
          rcases (mem_setAdd _ _ _).1 h with h1 | rfl
          · exact Or.inl h1
          · exact Or.inr (Or.inr ⟨ih, im, hiso, rfl⟩)
  | some hm =>
      obtain ⟨bh, bm⟩ := hm
      by_cases hrange : (bh < 24 && bm < 60) = true
      · have hr2 := hrange
        rw [Bool.and_eq_true, decide_eq_true_eq, decide_eq_true_eq] at hr2
        cases hiso : isoScan s.data with
        | none =>
            simp only [extractString, hbare, hiso, hrange, if_true] at h
            rcases (mem_setAdd _ _ _).1 h with h1 | rfl
            · exact Or.inl h1
            · exact Or.inr (Or.inl ⟨bh, bm, hbare, hr2.1, hr2.2, rfl⟩)
        | some hm2 =>
            obtain ⟨ih, im⟩ := hm2
            simp only [extractString, hbare, hiso, hrange, if_true] at h
            rcases (mem_setAdd _ _ _).1 h with h1 | rfl
            · rcases (mem_setAdd _ _ _).1 h1 with h2 | rfl
              · exact Or.inl h2
              · exact Or.inr (Or.inl ⟨bh, bm, hbare, hr2.1, hr2.2, rfl⟩)
            · exact Or.inr (Or.inr ⟨ih, im, hiso, rfl⟩)
      · rw [Bool.not_eq_true] at hrange
        cases hiso : isoScan s.data with
        | none =>
            simp only [extractString, hbare, hiso, hrange, Bool.false_eq_true, if_false] at h
            exact Or.inl h
        | some hm2 =>
            obtain ⟨ih, im⟩ := hm2
            simp only [extractString, hbare, hiso, hrange, Bool.false_eq_true, if_false] at h
            rcases (mem_setAdd _ _ _).1 h with h1 | rfl
            · exact Or.inl h1
            · exact Or.inr (Or.inr ⟨ih, im, hiso, rfl⟩)

mutual
theorem mem_extractTimesVisit (data : Json) (times : List String) (t : String)
    (h : t ∈ extractTimesVisit data times) :
    t ∈ times ∨ ∃ s, s ∈ leafStrings data ∧ emittedFromString s t := by
  match data with
  | .null => exact Or.inl h
  | .bool _ => exact Or.inl h
  | .num _ => exact Or.inl h
  | .str s =>
      rcases mem_extractString s times t h with h0 | he
      · exact Or.inl h0
      · exact Or.inr ⟨s, by simp [leafStrings], he⟩
  | .arr xs =>
      rcases mem_extractTimesArr xs times t h with h0 | ⟨s, hs, he⟩
      · exact Or.inl h0
      · exact Or.inr ⟨s, by simpa [leafStrings] using hs, he⟩
  | .obj fs =>
      rcases mem_extractTimesObj fs times t h with h0 | ⟨s, hs, he⟩
      · exact Or.inl h0
      · exact Or.inr ⟨s, by simpa [leafStrings] using hs, he⟩

theorem mem_extractTimesArr (xs : List Json) (times : List String) (t : String)
    (h : t ∈ extractTimesArr xs times) :
    t ∈ times ∨ ∃ s, s ∈ leafStringsArr xs ∧ emittedFromString s t := by
  match xs with
  | [] => exact Or.inl h
  | v :: rest =>
      have h1 : t ∈ extractTimesArr rest (extractTimesVisit v times) := h
      rcases mem_extractTimesArr rest (extractTimesVisit v times) t h1 with h2 | ⟨s, hs, he⟩
      · rcases mem_extractTimesVisit v times t h2 with h3 | ⟨s, hs, he⟩
        · exact Or.inl h3
        · exact Or.inr ⟨s, by simp [leafStringsArr, List.mem_append]; exact Or.inl hs, he⟩
      · exact Or.inr ⟨s, by simp [leafStringsArr, List.mem_append]; exact Or.inr hs, he⟩

theorem mem_extractTimesObj (fs : List (String × Json)) (times : List String) (t : String)
    (h : t ∈ extractTimesObj fs times) :
    t ∈ times ∨ ∃ s, s ∈ leafStringsObj fs ∧ emittedFromString s t := by
  match fs with
  | [] => exact Or.inl h
  | (k, v) :: rest =>
      have hvis : ∀ ts0 : List String, t ∈ extractTimesVisit v ts0 →
          t ∈ ts0 ∨ ∃ s, s ∈ leafStringsObj ((k, v) :: rest) ∧ emittedFromString s t := by
        intro ts0 hv
        rcases mem_extractTimesVisit v ts0 t hv with h0 | ⟨s, hs, he⟩
        · exact Or.inl h0
        · exact Or.inr ⟨s, by simp [leafStringsObj, List.mem_append]; exact Or.inl hs, he⟩
      have hrest : ∀ mid : List String, t ∈ extractTimesObj rest mid →
          t ∈ mid ∨ ∃ s, s ∈ leafStringsObj ((k, v) :: rest) ∧ emittedFromString s t := by
        intro mid hm
        rcases mem_extractTimesObj rest mid t hm with h0 | ⟨s, hs, he⟩
        · exact Or.inl h0
        · exact Or.inr ⟨s, by simp [leafStringsObj, List.mem_append]; exact Or.inr hs, he⟩
      by_cases htk : isTimeKeyET k = true
      · match v with
        | .str s =>
            have h1 : t ∈ extractTimesObj rest
                (extractString s (extractTimesVisit (.str s) times)) := by
              simpa [extractTimesObj, htk] using h
            rcases hrest _ h1 with h2 | hdone
            · rcases mem_extractString s (extractTimesVisit (.str s) times) t h2 with h3 | he
              · exact hvis times h3
              · exact Or.inr ⟨s, by simp [leafStringsObj, leafStrings, List.mem_append], he⟩
            · exact Or.inr hdone
        | .null =>
            have h1 : t ∈ extractTimesObj rest (extractTimesVisit .null times) := by
              simpa [extractTimesObj, htk] using h
            rcases hrest _ h1 with h2 | hdone
            · exact hvis times h2
            · exact Or.inr hdone
        | .bool b =>
            have h1 : t ∈ extractTimesObj rest (extractTimesVisit (.bool b) times) := by
              simpa [extractTimesObj, htk] using h
            rcases hrest _ h1 with h2 | hdone
            · exact hvis times h2
            · exact Or.inr hdone
        | .num n =>
            have h1 : t ∈ extractTimesObj rest (extractTimesVisit (.num n) times) := by
              simpa [extractTimesObj, htk] using h
            rcases hrest _ h1 with h2 | hdone
            · exact hvis times h2
            · exact Or.inr hdone
        | .arr ys =>
            have h1 : t ∈ extractTimesObj rest (extractTimesVisit (.arr ys) times) := by
              simpa [extractTimesObj, htk] using h
            rcases hrest _ h1 with h2 | hdone
            · exact hvis times h2
            · exact Or.inr hdone
        | .obj fs2 =>
            have h1 : t ∈ extractTimesObj rest (extractTimesVisit (.obj fs2) times) := by
              simpa [extractTimesObj, htk] using h
            rcases hrest _ h1 with h2 | hdone
            · exact hvis times h2
            · exact Or.inr hdone
      · have h1 : t ∈ extractTimesObj rest (extractTimesVisit v times) := by
          simpa [extractTimesObj, htk] using h
        rcases hrest _ h1 with h2 | hdone
        · exact hvis times h2
        · exact Or.inr hdone
end

/-- Counterexample for C6: the leaf string `"2024-03-15T99:99:00"` under a
`time` key puts `"99:99"` — hour 99 ≥ 24 and minute 99 ≥ 60 — into the
returned set: the ISO datetime branch performs no range check. -/
theorem out_of_range_counterexample :
    extractTimes (Json.obj [("time", Json.str "2024-03-15T99:99:00")]) [] none = ["99:99"] := by
  decide

/-- C6 amended.  Every element of the returned set either was already in the
accumulator or originates from some leaf string of the traversed value —
through the bare `HH:MM` pattern only when its hour is below 24 and its
minute below 60 (that branch discards out-of-range matches), or through the
ISO datetime pattern, which applies no range check. -/
theorem leaf_extraction_range_policy (data : Json) (times : List String) (t : String)
    (h : t ∈ extractTimes data times none) :
    t ∈ times ∨ ∃ s, s ∈ leafStrings data ∧ emittedFromString s t :=
  mem_extractTimesVisit data times t h

/-- Witness for the amended C6 at the in-range leaf `"19:30"`. -/
theorem leaf_extraction_range_policy_witness :
    ("19:30" : String) ∈ ([] : List String)
    ∨ ∃ s, s ∈ leafStrings (Json.obj [("time", Json.str "19:30")])
        ∧ emittedFromString s "19:30" :=
  leaf_extraction_range_policy (Json.obj [("time", Json.str "19:30")]) [] "19:30" (by decide)

/-- Witness for C3 at the claim's observation
`{"date":"2024-03-16","slots":[{"time":"19:30"}]}` with target date
`2024-03-15`: empty extraction and zero notifications. -/
theorem date_confirmation_conservatism_witness :
    extractTimesFromJson (Json.obj [("date", Json.str "2024-03-16"),
        ("slots", Json.arr [Json.obj [("time", Json.str "19:30")]])]) "2024-03-15" = []
    ∧ processAvailableTimes (fun _ => true) "2024-03-15" "18:00" "21:00"
        (extractTimesFromJson (Json.obj [("date", Json.str "2024-03-16"),
          ("slots", Json.arr [Json.obj [("time", Json.str "19:30")]])]) "2024-03-15").eraseDups []
      = ([], [], 0) :=
  date_confirmation_conservatism "2024-03-15" "18:00" "21:00" (fun _ => true) []
    (Json.obj [("date", Json.str "2024-03-16"),
      ("slots", Json.arr [Json.obj [("time", Json.str "19:30")]])]) (by decide)

/-! ## C7 — cycle-safe termination of the graph traversal -/

theorem filter_length_mono {p q : Nat → Bool} (himp : ∀ x, p x = true → q x = true) :
    ∀ l : List Nat, (l.filter p).length ≤ (l.filter q).length := by
  intro l
  induction l with
  | nil => simp
  | cons a tl ih =>
      by_cases hpa : p a = true
      · have hqa := himp a hpa
        simp only [List.filter_cons, hpa, hqa, if_true, List.length_cons]
        omega
      · rw [Bool.not_eq_true] at hpa
        simp only [List.filter_cons, hpa, Bool.false_eq_true, if_false]
        by_cases hqa : q a = true
        · simp only [hqa, if_true, List.length_cons]
          omega
        · rw [Bool.not_eq_true] at hqa
          simp only [hqa, Bool.false_eq_true, if_false]
          exact ih

theorem unvisited_mono (heap : Heap) {visited visited' : List Nat}
    (hsub : visited ⊆ visited') :
    unvisitedCount heap visited' ≤ unvisitedCount heap visited := by
  apply filter_length_mono
  intro x hx
  rw [Bool.not_eq_true'] at hx ⊢
  by_contra hne
  rw [Bool.not_eq_false] at hne
  have hxv : x ∈ visited := by simpa using hne
  have hxv' : visited'.contains x = true := by simpa using hsub hxv
  rw [hx] at hxv'
  cases hxv'

theorem lookupNode_mem : ∀ (heap : Heap) (r : Nat) (nd : HNode),
    lookupNode heap r = some nd → r ∈ heap.map Prod.fst := by
  intro heap
  induction heap with
  | nil => intro r nd h; cases h
  | cons e rest ih =>
      intro r nd h
      obtain ⟨i, n⟩ := e
      by_cases hir : (i == r) = true
      · have : i = r := by simpa using hir
        simp [this]
      · rw [Bool.not_eq_true] at hir
        simp only [lookupNode, hir, Bool.false_eq_true, if_false] at h
        simp [ih r nd h]

theorem filter_length_cons_lt (r : Nat) (visited : List Nat) (hr : r ∉ visited) :
    ∀ l : List Nat, r ∈ l →
      (l.filter (fun x => !(r :: visited).contains x)).length <
        (l.filter (fun x => !visited.contains x)).length := by
  have hmono : ∀ x : Nat, (!(r :: visited).contains x) = true → (!visited.contains x) = true := by
    intro x hx
    rw [Bool.not_eq_true'] at hx ⊢
    by_contra hne
    rw [Bool.not_eq_false] at hne
    have hxv : x ∈ visited := by simpa using hne
    have hxv' : (r :: visited).contains x = true := by
      simp [List.mem_cons, hxv]
    rw [hx] at hxv'
    cases hxv'
  intro l
  induction l with
  | nil => intro h; cases h
  | cons a tl ih =>
      intro hmem
      by_cases har : a = r
      · subst har
        have h1 : ((a :: visited).contains a) = true := by simp
        have h2 : (visited.contains a) = false := by simpa using hr
        simp only [List.filter_cons, h1, Bool.not_true, Bool.false_eq_true, if_false,
          h2, Bool.not_false, if_true, List.length_cons]
        have hle := filter_length_mono hmono tl
        omega
      · have hmem' : r ∈ tl := by
          rcases List.mem_cons.1 hmem with h | h
          · exact absurd h.symm har
          · exact h
        have hpred : ((r :: visited).contains a) = (visited.contains a) := by
          have : ¬ (a = r) := har
          simp [List.contains_cons, this]
        by_cases hav : (visited.contains a) = true
        · simp only [List.filter_cons, hpred, hav, Bool.not_true, Bool.false_eq_true, if_false]
          exact ih hmem'
        · rw [Bool.not_eq_true] at hav
          simp only [List.filter_cons, hpred, hav, Bool.not_false, if_true, List.length_cons]
          have := ih hmem'
          omega

theorem unvisited_descend_lt (heap : Heap) (r : Nat) (visited : List Nat) (nd : HNode)
    (hr : r ∉ visited) (hnd : lookupNode heap r = some nd) :
    unvisitedCount heap (r :: visited) < unvisitedCount heap visited :=
  filter_length_cons_lt r visited hr (heap.map Prod.fst) (lookupNode_mem heap r nd hnd)

theorem extractTimesGraph_fuel :
    ∀ (fuel : Nat) (heap : Heap),
      (∀ (v : Val) (times : List String) (visited : List Nat),
          unvisitedCount heap visited < fuel →
          ∃ p : List String × List Nat,
            extractTimesGraph heap fuel v times visited = some p ∧ visited ⊆ p.2)
      ∧ (∀ (xs : List Val) (times : List String) (visited : List Nat),
          unvisitedCount heap visited < fuel →
          ∃ p : List String × List Nat,
            extractTimesGraphArr heap fuel xs times visited = some p ∧ visited ⊆ p.2)
      ∧ (∀ (fs : List (String × Val)) (times : List String) (visited : List Nat),
          unvisitedCount heap visited < fuel →
          ∃ p : List String × List Nat,
            extractTimesGraphObj heap fuel fs times visited = some p ∧ visited ⊆ p.2) := by
  intro fuel
  induction fuel with
  | zero =>
      intro heap
      refine ⟨?_, ?_, ?_⟩ <;> intro _ _ visited hlt <;> exact absurd hlt (Nat.not_lt_zero _)
  | succ f ih =>
      intro heap
      obtain ⟨_, ihA, ihO⟩ := ih heap
      have hV : ∀ (v : Val) (times : List String) (visited : List Nat),
          unvisitedCount heap visited < f + 1 →
          ∃ p : List String × List Nat,
            extractTimesGraph heap (f + 1) v times visited = some p ∧ visited ⊆ p.2 := by
        intro v times visited hlt
        match v with
        | .vnull => exact ⟨(times, visited), by simp [extractTimesGraph], List.Subset.refl _⟩
        | .vbool b => exact ⟨(times, visited), by simp [extractTimesGraph], List.Subset.refl _⟩
        | .vnum n => exact ⟨(times, visited), by simp [extractTimesGraph], List.Subset.refl _⟩
        | .vstr s =>
            exact ⟨(extractString s times, visited), by simp [extractTimesGraph],
              List.Subset.refl _⟩
        | .vref r =>
            by_cases hvis : (visited.contains r) = true
            · have hmem : r ∈ visited := by simpa using hvis
              refine ⟨(times, visited), ?_, List.Subset.refl _⟩
              simp [extractTimesGraph, hmem]
            · rw [Bool.not_eq_true] at hvis
              have hrnot : r ∉ visited := by simpa using hvis
              cases hnd : lookupNode heap r with
              | none =>
                  refine ⟨(times, r :: visited), ?_, List.subset_cons_self _ _⟩
                  simp [extractTimesGraph, hrnot, hnd]
              | some nd =>
                  have hdec : unvisitedCount heap (r :: visited) < f := by
                    have := unvisited_descend_lt heap r visited nd hrnot hnd
                    omega
                  cases nd with
                  | harr xs =>
                      obtain ⟨p, hp, hsub⟩ := ihA xs times (r :: visited) hdec
                      refine ⟨p, ?_, ?_⟩
                      · simp [extractTimesGraph, hrnot, hnd, hp]
                      · exact List.Subset.trans (List.subset_cons_self _ _) hsub
                  | hobj fs =>
                      obtain ⟨p, hp, hsub⟩ := ihO fs times (r :: visited) hdec
                      refine ⟨p, ?_, ?_⟩
                      · simp [extractTimesGraph, hrnot, hnd, hp]
                      · exact List.Subset.trans (List.subset_cons_self _ _) hsub
      have hA : ∀ (xs : List Val) (times : List String) (visited : List Nat),
          unvisitedCount heap visited < f + 1 →
          ∃ p : List String × List Nat,
            extractTimesGraphArr heap (f + 1) xs times visited = some p ∧ visited ⊆ p.2 := by
        intro xs
        induction xs with
        | nil =>
            intro times visited hlt
            exact ⟨(times, visited), by simp [extractTimesGraphArr], List.Subset.refl _⟩
        | cons v rest ihxs =>
            intro times visited hlt
            obtain ⟨p1, hp1, hsub1⟩ := hV v times visited hlt
            have hlt2 : unvisitedCount heap p1.2 < f + 1 :=
              Nat.lt_of_le_of_lt (unvisited_mono heap hsub1) hlt
            obtain ⟨p2, hp2, hsub2⟩ := ihxs p1.1 p1.2 hlt2
            refine ⟨p2, ?_, List.Subset.trans hsub1 hsub2⟩
            simp only [extractTimesGraphArr, hp1]
            exact hp2
      have hO : ∀ (fs : List (String × Val)) (times : List String) (visited : List Nat),
          unvisitedCount heap visited < f + 1 →
          ∃ p : List String × List Nat,
            extractTimesGraphObj heap (f + 1) fs times visited = some p ∧ visited ⊆ p.2 := by
        intro fs
        induction fs with
        | nil =>
            intro times visited hlt
            exact ⟨(times, visited), by simp [extractTimesGraphObj], List.Subset.refl _⟩
        | cons e rest ihfs =>
            obtain ⟨k, v⟩ := e
            intro times visited hlt
            obtain ⟨p1, hp1, hsub1⟩ := hV v times visited hlt
            have hlt2 : unvisitedCount heap p1.2 < f + 1 :=
              Nat.lt_of_le_of_lt (unvisited_mono heap hsub1) hlt
            by_cases htk : isTimeKeyET k = true
            · obtain ⟨p2, hp2, hsub2⟩ := hV v p1.1 p1.2 hlt2
              have hlt3 : unvisitedCount heap p2.2 < f + 1 :=
                Nat.lt_of_le_of_lt (unvisited_mono heap hsub2) hlt2
              obtain ⟨p3, hp3, hsub3⟩ := ihfs p2.1 p2.2 hlt3
              refine ⟨p3, ?_, List.Subset.trans hsub1 (List.Subset.trans hsub2 hsub3)⟩
              simp only [extractTimesGraphObj, htk, if_true, hp1, hp2]
              exact hp3
            · rw [Bool.not_eq_true] at htk
              obtain ⟨p2, hp2, hsub2⟩ := ihfs p1.1 p1.2 hlt2
              refine ⟨p2, ?_, List.Subset.trans hsub1 hsub2⟩
              simp only [extractTimesGraphObj, htk, Bool.false_eq_true, if_false, hp1]
              exact hp2
      exact ⟨hV, hA, hO⟩

/-- C7.  The `extractTimes` traversal terminates on every input graph,
including self-referential (cyclic) structures: with any fuel exceeding the
number of unvisited heap entries, the fuel guard is never reached (the run
completes with a `some` result), because the visited set strictly shrinks the
unvisited count on every descent and already-visited nodes return
immediately.  The visited set only ever grows. -/
theorem extraction_terminates_on_cycles (heap : Heap) (v : Val) (times : List String)
    (visited : List Nat) (fuel : Nat) (h : unvisitedCount heap visited < fuel) :
    ∃ p : List String × List Nat,
      extractTimesGraph heap fuel v times visited = some p ∧ visited ⊆ p.2 :=
  (extractTimesGraph_fuel fuel heap).1 v times visited h

/-- Witness for C7 on a genuinely cyclic heap: node 0 refers to itself and
also carries the time `"19:30"`; the traversal completes. -/
theorem extraction_terminates_on_cycles_witness :
    unvisitedCount [(0, HNode.hobj [("self", Val.vref 0), ("time", Val.vstr "19:30")])] [] < 2
    ∧ ∃ p : List String × List Nat,
        extractTimesGraph [(0, HNode.hobj [("self", Val.vref 0), ("time", Val.vstr "19:30")])]
          2 (Val.vref 0) [] [] = some p ∧ ([] : List Nat) ⊆ p.2 :=
  ⟨by decide,
   extraction_terminates_on_cycles
     [(0, HNode.hobj [("self", Val.vref 0), ("time", Val.vstr "19:30")])]
     (Val.vref 0) [] [] 2 (by decide)⟩

/-! ## C8 — processing order of the first unnamed script's pipeline -/

theorem mem_eraseDups_loop {α} [BEq α] (x : α) :
    ∀ (as bs : List α), x ∈ List.eraseDups.loop as bs → x ∈ as ∨ x ∈ bs := by
  intro as
  induction as with
  | nil =>
      intro bs h
      right
      simpa [List.eraseDups.loop] using h
  | cons a tl ih =>
      intro bs h
      cases he : bs.elem a with
      | true =>
          rw [List.eraseDups.loop, he] at h
          rcases ih bs h with h1 | h2
          · exact Or.inl (List.mem_cons_of_mem a h1)
          · exact Or.inr h2
      | false =>
          rw [List.eraseDups.loop, he] at h
          rcases ih (a :: bs) h with h1 | h2
          · exact Or.inl (List.mem_cons_of_mem a h1)
          · rcases List.mem_cons.1 h2 with rfl | h3
            · exact Or.inl (List.mem_cons_self _ _)
            · exact Or.inr h3

theorem mem_of_mem_eraseDups {α} [BEq α] {x : α} {l : List α}
    (h : x ∈ l.eraseDups) : x ∈ l := by
  rcases mem_eraseDups_loop x l [] h with h1 | h1
  · exact h1
  · cases h1

theorem charListLe_total : ∀ as bs : List Char,
    charListLe as bs = true ∨ charListLe bs as = true := by
  intro as
  induction as with
  | nil => intro bs; exact Or.inl rfl
  | cons a as' ih =>
      intro bs
      match bs with
      | [] => exact Or.inr rfl
      | b :: bs' =>
          rcases Nat.lt_trichotomy a.toNat b.toNat with h | h | h
          · exact Or.inl (by simp [charListLe, h])
          · rcases ih bs' with h1 | h1
            · exact Or.inl (by simp [charListLe, h, h1])
            · exact Or.inr (by simp [charListLe, h, h1])
          · exact Or.inr (by simp [charListLe, h])

theorem charListLe_trans : ∀ as bs cs : List Char,
    charListLe as bs = true → charListLe bs cs = true → charListLe as cs = true := by
  intro as
  induction as with
  | nil => intro bs cs h1 h2; rfl
  | cons a as' ih =>
      intro bs cs h1 h2
      match bs, cs with
      | [], _ => exact absurd h1 (by simp [charListLe])
      | b :: bs', [] => exact absurd h2 (by simp [charListLe])
      | b :: bs', c :: cs' =>
          simp only [charListLe] at h1 h2 ⊢
          split_ifs at h1 h2 ⊢ <;>
            first
              | rfl
              | exact ih bs' cs' h1 h2
              | exact (Bool.false_ne_true h1).elim
              | exact (Bool.false_ne_true h2).elim
              | (exfalso; omega)

instance : IsTotal String strLeRel :=
  ⟨fun a b => charListLe_total a.data b.data⟩

instance : IsTrans String strLeRel :=
  ⟨fun a b c h1 h2 => charListLe_trans a.data b.data c.data h1 h2⟩

theorem canonicalTime_shape (t : String) (h : canonicalTime t = true) :
    ∃ h1 h2 m1 m2 : Char, t.data = [h1, h2, ':', m1, m2]
      ∧ 48 ≤ h1.toNat ∧ h1.toNat ≤ 57 ∧ 48 ≤ h2.toNat ∧ h2.toNat ≤ 57
      ∧ 48 ≤ m1.toNat ∧ m1.toNat ≤ 57 ∧ 48 ≤ m2.toNat ∧ m2.toNat ≤ 57
      ∧ 10 * digitVal h1 + digitVal h2 < 24
      ∧ 10 * digitVal m1 + digitVal m2 < 60 := by
  unfold canonicalTime at h
  match hdt : t.data, h with
  | [c1, c2, c3, c4, c5], h =>
      simp only [Bool.and_eq_true, decide_eq_true_eq, beq_iff_eq] at h
      obtain ⟨⟨⟨⟨⟨⟨⟨hb1, hb1'⟩, ⟨hb2, hb2'⟩⟩, hc⟩, ⟨hb3, hb3'⟩⟩, ⟨hb4, hb4'⟩⟩, hbh⟩, hbm⟩ := h
      subst hc
      exact ⟨c1, c2, c4, c5, rfl, hb1, hb1', hb2, hb2', hb3, hb3', hb4, hb4', hbh, hbm⟩

set_option maxHeartbeats 1000000 in
theorem charlist_val_le (a1 a2 a3 a4 b1 b2 b3 b4 : Char)
    (ha1 : 48 ≤ a1.toNat) (ha1' : a1.toNat ≤ 57) (ha2 : 48 ≤ a2.toNat) (ha2' : a2.toNat ≤ 57)
    (ha3 : 48 ≤ a3.toNat) (ha3' : a3.toNat ≤ 57) (ha4 : 48 ≤ a4.toNat) (ha4' : a4.toNat ≤ 57)
    (hb1 : 48 ≤ b1.toNat) (hb1' : b1.toNat ≤ 57) (hb2 : 48 ≤ b2.toNat) (hb2' : b2.toNat ≤ 57)
    (hb3 : 48 ≤ b3.toNat) (hb3' : b3.toNat ≤ 57) (hb4 : 48 ≤ b4.toNat) (hb4' : b4.toNat ≤ 57)
    (hamin : 10 * digitVal a3 + digitVal a4 < 60)
    (hbmin : 10 * digitVal b3 + digitVal b4 < 60)
    (hab : charListLe [a1, a2, ':', a3, a4] [b1, b2, ':', b3, b4] = true) :
    (10 * digitVal a1 + digitVal a2) * 60 + (10 * digitVal a3 + digitVal a4)
      ≤ (10 * digitVal b1 + digitVal b2) * 60 + (10 * digitVal b3 + digitVal b4) := by
  have hcolon : (':' : Char).toNat = 58 := rfl
  simp only [charListLe] at hab
  simp only [digitVal] at *
  split_ifs at hab <;>
    first
      | exact (Bool.false_ne_true hab).elim
      | omega

theorem canonical_le_bridge (a b : String) (hca : canonicalTime a = true)
    (hcb : canonicalTime b = true) (hab : strLe a b = true) :
    canonicalVal a ≤ canonicalVal b := by
  obtain ⟨a1, a2, a3, a4, hda, ha1, ha1', ha2, ha2', ha3, ha3', ha4, ha4', hahr, hamin⟩ :=
    canonicalTime_shape a hca
  obtain ⟨b1, b2, b3, b4, hdb, hb1, hb1', hb2, hb2', hb3, hb3', hb4, hb4', hbhr, hbmin⟩ :=
    canonicalTime_shape b hcb
  have hva : canonicalVal a
      = (10 * digitVal a1 + digitVal a2) * 60 + (10 * digitVal a3 + digitVal a4) := by
    unfold canonicalVal
    rw [hda]
  have hvb : canonicalVal b
      = (10 * digitVal b1 + digitVal b2) * 60 + (10 * digitVal b3 + digitVal b4) := by
    unfold canonicalVal
    rw [hdb]
  have hab' : charListLe [a1, a2, ':', a3, a4] [b1, b2, ':', b3, b4] = true := by
    unfold strLe at hab
    rw [hda, hdb] at hab
    exact hab
  rw [hva, hvb]
  exact charlist_val_le a1 a2 a3 a4 b1 b2 b3 b4 ha1 ha1' ha2 ha2' ha3 ha3' ha4 ha4'
    hb1 hb1' hb2 hb2' hb3 hb3' hb4 hb4' hamin hbmin hab'

/-- C8 amended.  The pipeline of the first unnamed script sorts the
deduplicated extracted times and then filters by the window, so the
notification loop processes surviving times in ascending lexicographic order;
when all extracted times are canonical in-range `HH:MM` strings (as the
normalizing extraction produces for in-range data), that order is ascending
time-of-day. -/
theorem part000_processing_order_ascending (ws we : String) (ts : List String)
    (h : ts.all canonicalTime = true) :
    List.Pairwise strLeRel (timesInWindow ws we ts)
    ∧ List.Pairwise (fun x y => canonicalVal x ≤ canonicalVal y) (timesInWindow ws we ts) := by
  have hsorted : List.Sorted strLeRel (List.insertionSort strLeRel ts.eraseDups) :=
    List.sorted_insertionSort strLeRel ts.eraseDups
  have hfil : List.Pairwise strLeRel (timesInWindow ws we ts) := by
    unfold timesInWindow
    exact List.Pairwise.sublist (List.filter_sublist _) hsorted
  refine ⟨hfil, ?_⟩
  refine List.Pairwise.imp_of_mem ?_ hfil
  intro x y hx hy hxy
  have hmem : ∀ z ∈ timesInWindow ws we ts, canonicalTime z = true := by
    intro z hz
    unfold timesInWindow at hz
    have hz1 := (List.mem_filter.1 hz).1
    have hz2 : z ∈ ts.eraseDups := (List.mem_insertionSort strLeRel).1 hz1
    exact List.all_eq_true.1 h z (mem_of_mem_eraseDups hz2)
  exact canonical_le_bridge x y (hmem x hx) (hmem y hy) hxy

/-- Witness for the amended C8: extraction order `["20:00", "19:30"]` is
processed by the first unnamed script's pipeline as `["19:30", "20:00"]` —
pairwise ascending both lexicographically and by time of day. -/
theorem part000_processing_order_ascending_witness :
    (["20:00", "19:30"].all canonicalTime = true)
    ∧ List.Pairwise strLeRel (timesInWindow "18:00" "21:00" ["20:00", "19:30"])
    ∧ List.Pairwise (fun x y => canonicalVal x ≤ canonicalVal y)
        (timesInWindow "18:00" "21:00" ["20:00", "19:30"]) :=
  ⟨by decide,
   (part000_processing_order_ascending "18:00" "21:00" ["20:00", "19:30"] (by decide)).1,
   (part000_processing_order_ascending "18:00" "21:00" ["20:00", "19:30"] (by decide)).2⟩
